import Mathlib

/-!
Verification of the Boggle solver (`boggle.py`): the board adjacency
construction (`Board._init_adjacency`), the dictionary loader
(`Boggle.load_words`), the letter validation (`Board._validate_letter`,
`Board._validate_letters`) and the pruned depth-first word search
(`Board.find_words` with its inner `_advance_path`).

Words and board letters are modelled as `List Char` (a board cell may hold
more than one character, e.g. the consonant `QU`).  The recursion of
`_advance_path` is modelled with an explicit fuel parameter; the top-level
`find_words` supplies fuel `letters.length` (= N² on a real board), and the
fuel-stability theorem shows any fuel ≥ N² gives the same result, which is
exactly the recursion-depth bound of the Python recursion.
-/

namespace Boggle

abbrev Word := List Char

/-- Python `line.rstrip()`: remove trailing whitespace characters. -/
def rstrip (w : Word) : Word :=
  (w.reverse.dropWhile Char.isWhitespace).reverse

/-- Python `word.upper()`: uppercase every character. -/
def upperWord (w : Word) : Word :=
  w.map Char.toUpper

/-- The normalisation applied to each line in `Boggle.load_words`:
`line.rstrip().upper()`. -/
def normalize_line (line : Word) : Word :=
  upperWord (rstrip line)

/-- The loader `Boggle.load_words` (file already split into lines): keep each
normalised line whose length is at least `min_len` (default 3), in order. -/
def load_words (lines : List Word) (min_len : Nat := 3) : List Word :=
  lines.filterMap fun line =>
    let word := normalize_line line
    if min_len ≤ word.length then some word else none

/-- The prefix set built at the start of `Board.find_words`:
`{w[:i] for w in words for i in range(1, len(w))}` (membership model of the
Python set). -/
def prefixesOf (words : List Word) : List Word :=
  words.flatMap fun w => (List.range' 1 (w.length - 1)).map fun i => w.take i

/-- The neighbour list written by `Board._init_adjacency` for index `i`
on a `size` × `size` board, in the order the Python code appends. -/
def adjRow (size i : Nat) : List Nat :=
  let x := i / size
  let y := i % size
  (if 0 < x then
    [i - size] ++ (if 0 < y then [i - size - 1] else []) ++
      (if y < size - 1 then [i - size + 1] else [])
  else []) ++
  (if x < size - 1 then
    [i + size] ++ (if 0 < y then [i + size - 1] else []) ++
      (if y < size - 1 then [i + size + 1] else [])
  else []) ++
  (if 0 < y then [i - 1] else []) ++
  (if y < size - 1 then [i + 1] else [])

/-- The method `Board._init_adjacency`: the dictionary from every index in
`range(size**2)` to its neighbour list. -/
def init_adjacency (size : Nat) : List (Nat × List Nat) :=
  (List.range (size * size)).map fun i => (i, adjRow size i)

/-- The inner recursion `_advance_path(prefix, path)` of `Board.find_words`,
with the captured variables (`letters`, `adjacency`, `words`, `prefixes`,
the accumulator `found`) made explicit and the recursion given fuel.
The returned list is the sequence of `found.append` calls this invocation
performs, in order. -/
def advance_path (letters : List Word) (adjacency : Nat → List Nat)
    (words pfxs : List Word) : Nat → Word → List Nat → List Word
  | 0, _, _ => []
  | fuel + 1, pfx, path =>
    (if pfx ∈ words then [pfx] else []) ++
    (if pfx ∈ pfxs then
      ((adjacency (path.getLastD 0)).filter fun j => decide (j ∉ path)).flatMap
        fun j =>
          advance_path letters adjacency words pfxs fuel
            (pfx ++ letters.getD j []) (path ++ [j])
    else [])

/-- The search `Board.find_words` with an explicit fuel bound on the recursion depth
of `_advance_path`. -/
def find_words_fuel (letters : List Word) (adjacency : Nat → List Nat)
    (words : List Word) (fuel : Nat) : List Word :=
  (List.range letters.length).flatMap fun i =>
    advance_path letters adjacency words (prefixesOf words) fuel
      (letters.getD i []) [i]

/-- The search `Board.find_words`: the list of appended words (duplicates and order
preserved).  Fuel `letters.length` = N² is the bound on the path length,
hence on the recursion depth. -/
def find_words (letters : List Word) (adjacency : Nat → List Nat)
    (words : List Word) : List Word :=
  find_words_fuel letters adjacency words letters.length

/-- The fields of a `Board` object that `find_words` can see or assign. -/
structure Board where
  size : Nat
  letters : List Word
  adjacency : Nat → List Nat
  found_words : List Word

/-- The method call `board.find_words(words)`: the post-state of the board. -/
def Board.find_words_method (b : Board) (words : List Word) : Board :=
  { b with found_words := find_words b.letters b.adjacency words }

/-- The class attribute `Board._vowels`. -/
def vowels : List Word :=
  [['A'], ['E'], ['I'], ['O'], ['U']]

/-- The list `BCDFGHJKLMNPQRSTVWXYZ` of single consonants before the `Q` → `QU` replacement. -/
def consonantsBase : List Word :=
  [['B'], ['C'], ['D'], ['F'], ['G'], ['H'], ['J'], ['K'], ['L'], ['M'],
   ['N'], ['P'], ['Q'], ['R'], ['S'], ['T'], ['V'], ['W'], ['X'], ['Y'],
   ['Z']]

/-- The class attribute `Board._consonants` after
`_consonants[_consonants.index('Q')] += 'U'`. -/
def consonants : List Word :=
  consonantsBase.set (consonantsBase.indexOf ['Q'])
    (consonantsBase.getD (consonantsBase.indexOf ['Q']) [] ++ ['U'])

/-- The validator `Board._validate_letter`: `some` of the uppercased letter when it is a
configured vowel or consonant, `none` for the `ValueError`. -/
def validate_letter (letter : Word) : Option Word :=
  if letter ∈ vowels ∨ letter ∈ consonants then some (upperWord letter)
  else none

/-- The validator `Board._validate_letters` on an explicit letter sequence. -/
def validate_letters (letters : List Word) : Option (List Word) :=
  letters.mapM validate_letter

/-- Board construction `Board.__init__` with an explicit letter sequence: validate every
letter, then require the length to be a perfect square; on success build
the adjacency and an empty `found_words`. -/
def mkBoard (letters : List Word) : Option Board :=
  match validate_letters letters with
  | none => none
  | some ls =>
    if Nat.sqrt ls.length * Nat.sqrt ls.length = ls.length then
      some { size := Nat.sqrt ls.length, letters := ls,
             adjacency := fun i => adjRow (Nat.sqrt ls.length) i,
             found_words := [] }
    else none

/-- The predicate `chainFrom adjacency i l`: successively following the cells of `l`
from cell `i` crosses an adjacency edge at every step. -/
def chainFrom (adjacency : Nat → List Nat) : Nat → List Nat → Prop
  | _, [] => True
  | i, j :: rest => j ∈ adjacency i ∧ chainFrom adjacency j rest

instance chainFrom.instDecidable (adjacency : Nat → List Nat) :
    (i : Nat) → (l : List Nat) → Decidable (chainFrom adjacency i l)
  | _, [] => .isTrue trivial
  | i, j :: rest =>
    letI := chainFrom.instDecidable adjacency j rest
    inferInstanceAs (Decidable (j ∈ adjacency i ∧ chainFrom adjacency j rest))

/-- The word spelled by a path: concatenation of the letters of its cells. -/
def wordOf (letters : List Word) (p : List Nat) : Word :=
  (p.map fun c => letters.getD c []).flatten

/-- The predicate `Realizes letters adjacency p w`: `p` is a simple path of the board —
nonempty, pairwise-distinct, in-bounds cells, consecutive cells adjacent —
whose letters concatenate to `w`. -/
def Realizes (letters : List Word) (adjacency : Nat → List Nat)
    (p : List Nat) (w : Word) : Prop :=
  p ≠ [] ∧ p.Nodup ∧ (∀ c ∈ p, c < letters.length) ∧
    chainFrom adjacency (p.headD 0) p.tail ∧ wordOf letters p = w

instance Realizes.instDecidable (letters : List Word)
    (adjacency : Nat → List Nat) (p : List Nat) (w : Word) :
    Decidable (Realizes letters adjacency p w) :=
  inferInstanceAs (Decidable (p ≠ [] ∧ p.Nodup ∧
    (∀ c ∈ p, c < letters.length) ∧
    chainFrom adjacency (p.headD 0) p.tail ∧ wordOf letters p = w))

/-- King-move adjacency between distinct in-bounds indices `i`, `j` on a
`size` × `size` board: rows and columns each differ by at most one. -/
def kingAdj (size i j : Nat) : Prop :=
  j < size * size ∧ j ≠ i ∧
    i / size ≤ j / size + 1 ∧ j / size ≤ i / size + 1 ∧
    i % size ≤ j % size + 1 ∧ j % size ≤ i % size + 1

/-! ### Basic lemmas -/

lemma flatMap_congr_mem {α β : Type} (l : List α) (f g : α → List β)
    (h : ∀ a ∈ l, f a = g a) : l.flatMap f = l.flatMap g := by
  induction l with
  | nil => rfl
  | cons a t ih =>
    simp only [List.flatMap_cons, h a (List.mem_cons_self a t)]
    rw [ih fun b hb => h b (List.mem_cons_of_mem a hb)]

lemma getLastD_mem : ∀ (l : List Nat), l ≠ [] → ∀ d, l.getLastD d ∈ l
  | [], h, _ => absurd rfl h
  | [a], _, _ => by simp [List.getLastD_cons]
  | a :: b :: u, _, d => by
    rw [List.getLastD_cons]
    exact List.mem_cons_of_mem a (getLastD_mem (b :: u) (by simp) a)

lemma nodup_bounded_length {l : List Nat} {n : Nat} (hnd : l.Nodup)
    (hlt : ∀ c ∈ l, c < n) : l.length ≤ n := by
  have h1 : l.toFinset.card = l.length := List.toFinset_card_of_nodup hnd
  have h2 : l.toFinset ⊆ Finset.range n := by
    intro c hc
    exact Finset.mem_range.mpr (hlt c (List.mem_toFinset.mp hc))
  calc l.length = l.toFinset.card := h1.symm
    _ ≤ (Finset.range n).card := Finset.card_le_card h2
    _ = n := Finset.card_range n

/-! ### C5: the dictionary loader -/

/-- C5.  A word is produced by `load_words` exactly when it is the
normalisation (trailing whitespace stripped, uppercased) of some input line
and its normalised length is at least `min_len`; shorter lines are
discarded. -/
theorem load_words_spec (lines : List Word) (min_len : Nat) (w : Word) :
    w ∈ load_words lines min_len ↔
      ∃ line ∈ lines, normalize_line line = w ∧ min_len ≤ w.length := by
  simp only [load_words, List.mem_filterMap]
  constructor
  · rintro ⟨line, hline, hsome⟩
    by_cases h : min_len ≤ (normalize_line line).length
    · simp only [if_pos h, Option.some_inj] at hsome
      exact ⟨line, hline, hsome, hsome ▸ h⟩
    · simp [if_neg h] at hsome
  · rintro ⟨line, hline, rfl, hlen⟩
    exact ⟨line, hline, by simp [hlen]⟩

/-! ### C6: the prefix set -/

/-- C6.  Membership in the prefix set computed by `find_words`: exactly the
slices `w.take k` for a dictionary word `w` and `1 ≤ k < w.length`; in
particular every such strict prefix of a word is present, and every member
is such a strict prefix of some word. -/
theorem prefixesOf_spec (words : List Word) (p : Word) :
    p ∈ prefixesOf words ↔
      ∃ w ∈ words, ∃ k, 1 ≤ k ∧ k < w.length ∧ p = w.take k := by
  simp only [prefixesOf, List.mem_flatMap, List.mem_map, List.mem_range'_1]
  constructor
  · rintro ⟨w, hw, k, ⟨hk1, hk2⟩, rfl⟩
    exact ⟨w, hw, k, hk1, by omega, rfl⟩
  · rintro ⟨w, hw, k, hk1, hk2, rfl⟩
    exact ⟨w, hw, k, ⟨hk1, by omega⟩, rfl⟩

/-! ### Lemmas about `wordOf` and `chainFrom` -/

lemma wordOf_cons (letters : List Word) (c : Nat) (p : List Nat) :
    wordOf letters (c :: p) = letters.getD c [] ++ wordOf letters p := by
  simp [wordOf]

lemma wordOf_append (letters : List Word) (p q : List Nat) :
    wordOf letters (p ++ q) = wordOf letters p ++ wordOf letters q := by
  simp [wordOf]

lemma wordOf_eq_nil (letters : List Word) (p : List Nat)
    (h : ∀ c ∈ p, letters.getD c [] = []) : wordOf letters p = [] := by
  induction p with
  | nil => rfl
  | cons c t ih =>
    rw [wordOf_cons, h c (List.mem_cons_self c t)]
    exact ih fun b hb => h b (List.mem_cons_of_mem c hb)

lemma getLastD_append_singleton (l : List Nat) (a d : Nat) :
    (l ++ [a]).getLastD d = a := by simp

lemma chainFrom_bounded (adjacency : Nat → List Nat) (n : Nat)
    (hadj : ∀ a, a < n → ∀ b, b ∈ adjacency a → b < n) :
    ∀ (l : List Nat) (i : Nat), i < n → chainFrom adjacency i l →
      ∀ c ∈ l, c < n := by
  intro l
  induction l with
  | nil => intro i _ _ c hc; simp at hc
  | cons j rest ih =>
    intro i hi hchain c hc
    obtain ⟨hj, hrest⟩ := hchain
    have hjn : j < n := hadj i hi j hj
    rcases List.mem_cons.mp hc with rfl | hc'
    · exact hjn
    · exact ih j hjn hrest c hc'

lemma chainFrom_suffix (adjacency : Nat → List Nat) :
    ∀ (t : List Nat) (a : Nat) (l : List Nat) (h : Nat) (ext : List Nat),
      chainFrom adjacency a l → t ++ h :: ext = a :: l →
      chainFrom adjacency h ext := by
  intro t
  induction t with
  | nil =>
    intro a l h ext hc heq
    simp only [List.nil_append] at heq
    injection heq with h1 h2
    subst h1; subst h2; exact hc
  | cons x t' ih =>
    intro a l h ext hc heq
    simp only [List.cons_append] at heq
    injection heq with hxa hrest
    subst hxa
    cases l with
    | nil => exact absurd hrest (by simp)
    | cons j l' => exact ih j l' h ext hc.2 hrest

lemma dropWhile_head_not (q : Nat → Bool) :
    ∀ (l : List Nat) (h : Nat) (t : List Nat),
      l.dropWhile q = h :: t → q h = false := by
  intro l
  induction l with
  | nil => intro h t he; simp [List.dropWhile] at he
  | cons a l' ih =>
    intro h t he
    rw [List.dropWhile_cons] at he
    by_cases hq : q a = true
    · exact ih h t (by simpa [hq] using he)
    · have : a = h := by
        simp only [hq, if_neg] at he
        exact (List.cons_eq_cons.mp he).1
      subst this
      simpa using hq

/-! ### Soundness of the search -/

lemma advance_path_sound (letters : List Word) (adjacency : Nat → List Nat)
    (words pfxs : List Word) :
    ∀ (fuel : Nat) (pfx : Word) (path : List Nat) (w : Word),
      path ≠ [] → path.Nodup →
      w ∈ advance_path letters adjacency words pfxs fuel pfx path →
      w ∈ words ∧ ∃ ext, (path ++ ext).Nodup ∧
        chainFrom adjacency (path.getLastD 0) ext ∧
        w = pfx ++ wordOf letters ext := by
  intro fuel
  induction fuel with
  | zero => intro pfx path w _ _ h; simp [advance_path] at h
  | succ fuel ih =>
    intro pfx path w hne hnd h
    simp only [advance_path, List.mem_append] at h
    rcases h with h | h
    · by_cases hw : pfx ∈ words
      · simp only [if_pos hw, List.mem_singleton] at h
        subst h
        exact ⟨hw, [], by simpa using hnd, trivial, by simp [wordOf]⟩
      · simp [if_neg hw] at h
    · by_cases hp : pfx ∈ pfxs
      · simp only [if_pos hp, List.mem_flatMap, List.mem_filter,
          decide_eq_true_eq] at h
        obtain ⟨j, ⟨hj_adj, hj_notin⟩, hw_rec⟩ := h
        have hnd' : (path ++ [j]).Nodup := by
          rw [List.nodup_append]
          refine ⟨hnd, List.nodup_singleton j, ?_⟩
          intro a ha hb
          rw [List.mem_singleton] at hb
          exact hj_notin (hb ▸ ha)
        obtain ⟨hw_words, ext', hnd'', hchain', heq⟩ :=
          ih (pfx ++ letters.getD j []) (path ++ [j]) w (by simp) hnd' hw_rec
        refine ⟨hw_words, j :: ext', ?_, ?_, ?_⟩
        · rwa [List.append_assoc, List.singleton_append] at hnd''
        · rw [getLastD_append_singleton] at hchain'
          exact ⟨hj_adj, hchain'⟩
        · rw [heq, wordOf_cons, List.append_assoc]
      · simp [if_neg hp] at h

/-- C2.  Soundness: under the (board-true) assumption that adjacency maps
in-bounds cells to in-bounds cells, every word placed in the result of
`find_words` is a member of the supplied word collection and is realizable
as a simple path of pairwise-distinct, consecutively adjacent, in-bounds
cells whose letters concatenate to the word; hence a word whose only
letter-matching arrangement would revisit a cell never appears. -/
theorem find_words_sound (letters : List Word) (adjacency : Nat → List Nat)
    (words : List Word) (w : Word)
    (hadj : ∀ a, a < letters.length → ∀ b, b ∈ adjacency a →
      b < letters.length)
    (hw : w ∈ find_words letters adjacency words) :
    w ∈ words ∧ ∃ p, Realizes letters adjacency p w := by
  simp only [find_words, find_words_fuel, List.mem_flatMap,
    List.mem_range] at hw
  obtain ⟨i, hi, hmem⟩ := hw
  obtain ⟨hw_words, ext, hnd, hchain, heq⟩ :=
    advance_path_sound letters adjacency words (prefixesOf words)
      letters.length (letters.getD i []) [i] w (by simp)
      (List.nodup_singleton i) hmem
  have hlast : ([i] : List Nat).getLastD 0 = i := rfl
  rw [hlast] at hchain
  refine ⟨hw_words, i :: ext, ?_, ?_, ?_, ?_, ?_⟩
  · simp
  · simpa using hnd
  · intro c hc
    rcases List.mem_cons.mp hc with rfl | hc'
    · exact hi
    · exact chainFrom_bounded adjacency letters.length hadj ext i hi hchain
        c hc'
  · simpa using hchain
  · rw [wordOf_cons, ← heq]

/-! ### Completeness of the search -/

lemma advance_path_complete (letters : List Word) (adjacency : Nat → List Nat)
    (words : List Word) :
    ∀ (ext : List Nat) (fuel : Nat) (pfx : Word) (path : List Nat) (w : Word),
      w ∈ words → path ≠ [] → (path ++ ext).Nodup →
      chainFrom adjacency (path.getLastD 0) ext →
      pfx ≠ [] → pfx ++ wordOf letters ext = w →
      ext.length < fuel →
      w ∈ advance_path letters adjacency words (prefixesOf words) fuel pfx
        path := by
  intro ext
  induction ext with
  | nil =>
    intro fuel pfx path w hw hne hnd hchain hpne heq hfuel
    cases fuel with
    | zero => omega
    | succ f =>
      have hpw : pfx = w := by simpa [wordOf] using heq
      subst hpw
      simp only [advance_path, List.mem_append]
      left
      rw [if_pos hw]
      exact List.mem_singleton.mpr rfl
  | cons j ext' ih =>
    intro fuel pfx path w hw hne hnd hchain hpne heq hfuel
    cases fuel with
    | zero => simp at hfuel
    | succ f =>
      simp only [advance_path, List.mem_append]
      by_cases hpw : pfx = w
      · left
        rw [hpw, if_pos hw]
        exact List.mem_singleton.mpr rfl
      · right
        have hrne : wordOf letters (j :: ext') ≠ [] := by
          intro h0
          exact hpw (by simpa [h0] using heq)
        have hpfx_mem : pfx ∈ prefixesOf words := by
          apply (prefixesOf_spec words pfx).mpr
          refine ⟨w, hw, pfx.length, ?_, ?_, ?_⟩
          · rcases pfx with _ | ⟨c, t⟩
            · exact absurd rfl hpne
            · simp
          · have hlen : w.length
                = pfx.length + (wordOf letters (j :: ext')).length := by
              rw [← heq, List.length_append]
            have : 1 ≤ (wordOf letters (j :: ext')).length := by
              rcases hx : wordOf letters (j :: ext') with _ | ⟨c, t⟩
              · exact absurd hx hrne
              · simp
            omega
          · rw [← heq]
            exact (List.take_left _ _).symm
        rw [if_pos hpfx_mem, List.mem_flatMap]
        have hj_notin : j ∉ path := by
          rw [List.nodup_append] at hnd
          intro hj
          exact hnd.2.2 hj (List.mem_cons_self j ext')
        refine ⟨j, ?_, ?_⟩
        · rw [List.mem_filter]
          exact ⟨hchain.1, by simpa using hj_notin⟩
        · apply ih f (pfx ++ letters.getD j []) (path ++ [j]) w hw (by simp)
          · rwa [List.append_assoc, List.singleton_append]
          · rw [getLastD_append_singleton]
            exact hchain.2
          · intro h0
            rw [List.append_eq_nil] at h0
            exact hpne h0.1
          · rw [List.append_assoc, ← wordOf_cons]
            exact heq
          · simp only [List.length_cons] at hfuel
            omega

/-- C1 amended.  Completeness: every dictionary word realizable via at
least one simple path of adjacent, pairwise-distinct, in-bounds cells
appears in the result of `find_words` at least once — the prefix pruning
never discards a true positive.  (Exactly-once fails: the list accumulator
records one entry per realizing search branch, see the counterexample.) -/
theorem find_words_complete (letters : List Word)
    (adjacency : Nat → List Nat) (words : List Word) (w : Word)
    (p : List Nat) (hw : w ∈ words) (hr : Realizes letters adjacency p w) :
    w ∈ find_words letters adjacency words := by
  obtain ⟨hne, hnd, hbnd, hchain, hword⟩ := hr
  have hsplit : p.takeWhile (fun c => (letters.getD c []).isEmpty)
      ++ p.dropWhile (fun c => (letters.getD c []).isEmpty) = p :=
    List.takeWhile_append_dropWhile _ p
  have hcons : p = p.headD 0 :: p.tail := by
    rcases p with _ | ⟨c, t⟩
    · exact absurd rfl hne
    · rfl
  cases hpd : p.dropWhile (fun c => (letters.getD c []).isEmpty) with
  | nil =>
    have hall : ∀ c ∈ p, (letters.getD c []).isEmpty := by
      intro c hc
      exact List.dropWhile_eq_nil_iff.mp hpd c hc
    have hwnil : w = [] := by
      rw [← hword]
      exact wordOf_eq_nil letters p fun c hc =>
        List.isEmpty_iff.mp (hall c hc)
    obtain ⟨c, t, rfl⟩ : ∃ c t, p = c :: t := ⟨p.headD 0, p.tail, hcons⟩
    have hc_lt : c < letters.length := hbnd c (List.mem_cons_self c t)
    have hc_nil : letters.getD c [] = [] :=
      List.isEmpty_iff.mp (hall c (List.mem_cons_self c t))
    simp only [find_words, find_words_fuel, List.mem_flatMap, List.mem_range]
    refine ⟨c, hc_lt, ?_⟩
    obtain ⟨f, hf⟩ : ∃ f, letters.length = f + 1 := by
      cases hl : letters.length with
      | zero => omega
      | succ f => exact ⟨f, rfl⟩
    rw [hf, hc_nil, hwnil]
    simp only [advance_path, List.mem_append]
    left
    rw [if_pos (hwnil ▸ hw)]
    exact List.mem_singleton.mpr rfl
  | cons h ext =>
    have hsplit2 : p.takeWhile (fun c => (letters.getD c []).isEmpty)
        ++ h :: ext = p := by rw [← hpd]; exact hsplit
    have hsuffix : (h :: ext) <:+ p := ⟨_, hsplit2⟩
    have hnd' : (h :: ext).Nodup := hnd.sublist hsuffix.sublist
    have hbnd' : ∀ c ∈ h :: ext, c < letters.length := fun c hc =>
      hbnd c (hsuffix.sublist.subset hc)
    have hchain' : chainFrom adjacency h ext :=
      chainFrom_suffix adjacency _ (p.headD 0) p.tail h ext hchain
        (hsplit2.trans hcons)
    have hh_ne : letters.getD h [] ≠ [] := by
      intro h0
      have hq := dropWhile_head_not (fun c => (letters.getD c []).isEmpty)
        p h ext hpd
      simp only [h0] at hq
      simp at hq
    have hword' : wordOf letters (h :: ext) = w := by
      have htake : wordOf letters
          (p.takeWhile fun c => (letters.getD c []).isEmpty) = [] := by
        apply wordOf_eq_nil
        intro c hc
        have hq := List.mem_takeWhile_imp hc
        exact List.isEmpty_iff.mp hq
      calc wordOf letters (h :: ext)
          = wordOf letters (p.takeWhile fun c => (letters.getD c []).isEmpty)
            ++ wordOf letters (h :: ext) := by rw [htake]; rfl
        _ = wordOf letters p := by rw [← wordOf_append, hsplit2]
        _ = w := hword
    have hlen : (h :: ext).length ≤ letters.length :=
      nodup_bounded_length hnd' hbnd'
    simp only [find_words, find_words_fuel, List.mem_flatMap, List.mem_range]
    refine ⟨h, hbnd' h (List.mem_cons_self h ext), ?_⟩
    apply advance_path_complete letters adjacency words ext letters.length
      (letters.getD h []) [h] w hw (by simp) (by simpa using hnd')
      (by simpa using hchain') hh_ne
      (by rw [← wordOf_cons]; exact hword')
    simp only [List.length_cons] at hlen
    omega

/-! ### C9: termination (the fuel N² is never exhausted) -/

lemma advance_path_stable (letters : List Word) (adjacency : Nat → List Nat)
    (words pfxs : List Word)
    (hadj : ∀ a, a < letters.length → ∀ b, b ∈ adjacency a →
      b < letters.length) :
    ∀ (fuel₁ fuel₂ : Nat) (pfx : Word) (path : List Nat),
      path ≠ [] → path.Nodup → (∀ c ∈ path, c < letters.length) →
      letters.length + 1 ≤ fuel₁ + path.length →
      letters.length + 1 ≤ fuel₂ + path.length →
      advance_path letters adjacency words pfxs fuel₁ pfx path
        = advance_path letters adjacency words pfxs fuel₂ pfx path := by
  intro fuel₁
  induction fuel₁ with
  | zero =>
    intro fuel₂ pfx path hne hnd hb h1 h2
    have := nodup_bounded_length hnd hb
    omega
  | succ f ih =>
    intro fuel₂ pfx path hne hnd hb h1 h2
    cases fuel₂ with
    | zero =>
      have := nodup_bounded_length hnd hb
      omega
    | succ g =>
      simp only [advance_path]
      congr 1
      by_cases hp : pfx ∈ pfxs
      · rw [if_pos hp, if_pos hp]
        apply flatMap_congr_mem
        intro j hj
        rw [List.mem_filter, decide_eq_true_eq] at hj
        obtain ⟨hj_adj, hj_notin⟩ := hj
        have hlast_mem : path.getLastD 0 ∈ path := getLastD_mem path hne 0
        have hj_lt : j < letters.length :=
          hadj _ (hb _ hlast_mem) j hj_adj
        apply ih g
        · simp
        · rw [List.nodup_append]
          refine ⟨hnd, List.nodup_singleton j, ?_⟩
          intro a ha hb'
          rw [List.mem_singleton] at hb'
          exact hj_notin (hb' ▸ ha)
        · intro c hc
          rcases List.mem_append.mp hc with hc | hc
          · exact hb c hc
          · rw [List.mem_singleton] at hc
            exact hc ▸ hj_lt
        · simp only [List.length_append, List.length_singleton]
          omega
        · simp only [List.length_append, List.length_singleton]
          omega
      · rw [if_neg hp, if_neg hp]

/-- C9.  Termination with the N² depth bound: on a board (adjacency maps
in-bounds cells to in-bounds cells), any recursion-depth budget of at least
`letters.length` (= N² on an N×N board) yields the same result as the
budget N² that `find_words` uses — paths cannot repeat a cell, so the
recursion depth never exceeds N² and no explicit counter is needed. -/
theorem find_words_fuel_bound (letters : List Word)
    (adjacency : Nat → List Nat) (words : List Word) (fuel : Nat)
    (hadj : ∀ a, a < letters.length → ∀ b, b ∈ adjacency a →
      b < letters.length)
    (hfuel : letters.length ≤ fuel) :
    find_words_fuel letters adjacency words fuel
      = find_words letters adjacency words := by
  simp only [find_words, find_words_fuel]
  apply flatMap_congr_mem
  intro i hi
  rw [List.mem_range] at hi
  apply advance_path_stable letters adjacency words (prefixesOf words) hadj
    fuel letters.length _ [i] (by simp) (List.nodup_singleton i)
  · intro c hc
    rw [List.mem_singleton] at hc
    exact hc ▸ hi
  · simp only [List.length_singleton]
    omega
  · simp only [List.length_singleton]
    omega

/-! ### C3: the search has no side effects on shared structure -/

/-- C3.  The method call `board.find_words(words)` leaves the board's size,
letters and adjacency unchanged, assigns `found_words` a fresh result that
is a pure function of exactly the grid letters, the adjacency mapping and
the word collection (any two boards agreeing on letters and adjacency get
the same result), and repeating the call reproduces the same result. -/
theorem find_words_method_frame (b₁ b₂ : Board) (words : List Word)
    (hl : b₁.letters = b₂.letters) (ha : b₁.adjacency = b₂.adjacency) :
    (b₁.find_words_method words).size = b₁.size ∧
    (b₁.find_words_method words).letters = b₁.letters ∧
    (b₁.find_words_method words).adjacency = b₁.adjacency ∧
    (b₁.find_words_method words).found_words
      = find_words b₁.letters b₁.adjacency words ∧
    (b₁.find_words_method words).found_words
      = (b₂.find_words_method words).found_words ∧
    ((b₁.find_words_method words).find_words_method words).found_words
      = (b₁.find_words_method words).found_words := by
  refine ⟨rfl, rfl, rfl, rfl, ?_, rfl⟩
  simp only [Board.find_words_method, hl, ha]

/-! ### C8: the 1×1 board -/

lemma mem_load_words_min (lines : List Word) (n : Nat) (w : Word)
    (h : w ∈ load_words lines n) : n ≤ w.length := by
  simp only [load_words, List.mem_filterMap] at h
  obtain ⟨line, _, hsome⟩ := h
  by_cases hc : n ≤ (normalize_line line).length
  · simp only [if_pos hc, Option.some_inj] at hsome
    exact hsome ▸ hc
  · simp [if_neg hc] at hsome

/-- C8 amended.  A 1×1 grid gives its only cell an empty neighbour list,
and `find_words` is empty whenever the dictionary's minimum word length is
at least 3 (the default): every validated cell letter has at most 2
characters, so no loaded word fits on the single cell.  (At minimum length
2 this fails: the two-character cell letter QU can be found, see the
counterexample.) -/
theorem one_by_one_board (letter : Word) (lines : List Word) (min_len : Nat)
    (hv : (validate_letter letter).isSome = true) (hmin : 3 ≤ min_len) :
    adjRow 1 0 = [] ∧
      find_words [letter] (fun i => adjRow 1 i) (load_words lines min_len)
        = [] := by
  refine ⟨rfl, ?_⟩
  have hlen : letter.length ≤ 2 := by
    rw [validate_letter] at hv
    by_cases hmem : letter ∈ vowels ∨ letter ∈ consonants
    · rcases hmem with hm | hm
      · exact (by decide : ∀ w ∈ vowels, w.length ≤ 2) letter hm
      · exact (by decide : ∀ w ∈ consonants, w.length ≤ 2) letter hm
    · rw [if_neg hmem] at hv
      simp at hv
  have hnotin : letter ∉ load_words lines min_len := by
    intro hmem
    have := mem_load_words_min lines min_len letter hmem
    omega
  have hrange : List.range 1 = [0] := by decide
  have hadj0 : adjRow 1 0 = [] := by decide
  simp only [find_words, find_words_fuel, List.length_singleton, hrange,
    List.flatMap_cons, List.flatMap_nil, List.append_nil, List.getD_cons_zero]
  rw [show (1 : Nat) = 0 + 1 from rfl]
  have hgl : ([0] : List Nat).getLastD 0 = 0 := rfl
  simp only [advance_path, hgl, hadj0, List.filter_nil,
    List.flatMap_nil, if_neg hnotin, List.nil_append]
  split_ifs <;> rfl

/-! ### C4: the adjacency construction -/

lemma encode_div {s b : Nat} (a : Nat) (hs : 0 < s) (hb : b < s) :
    (s * a + b) / s = a := by
  rw [Nat.mul_add_div hs, Nat.div_eq_of_lt hb, Nat.add_zero]

lemma encode_mod {s b : Nat} (a : Nat) (hb : b < s) :
    (s * a + b) % s = b := by
  rw [Nat.mul_add_mod, Nat.mod_eq_of_lt hb]

lemma encode_lt {s a b : Nat} (ha : a < s) (hb : b < s) :
    s * a + b < s * s := by
  calc s * a + b < s * a + s := by omega
    _ = s * (a + 1) := by rw [Nat.mul_succ]
    _ ≤ s * s := Nat.mul_le_mul_left s ha

lemma adjRow_def (s i : Nat) : adjRow s i =
    (if 0 < i / s then
      [i - s] ++ (if 0 < i % s then [i - s - 1] else []) ++
        (if i % s < s - 1 then [i - s + 1] else [])
    else []) ++
    (if i / s < s - 1 then
      [i + s] ++ (if 0 < i % s then [i + s - 1] else []) ++
        (if i % s < s - 1 then [i + s + 1] else [])
    else []) ++
    (if 0 < i % s then [i - 1] else []) ++
    (if i % s < s - 1 then [i + 1] else []) := rfl

lemma mem_ite_list {α : Type} (a : α) (c : Prop) [Decidable c]
    (l : List α) : (a ∈ if c then l else []) ↔ c ∧ a ∈ l := by
  split_ifs with h <;> simp [h]

lemma mem_adjRow_iff (s x y j : Nat) (hs : 0 < s) (hy : y < s) :
    j ∈ adjRow s (s * x + y) ↔
      (0 < x ∧ (j = s * x + y - s ∨ (0 < y ∧ j = s * x + y - s - 1) ∨
        (y < s - 1 ∧ j = s * x + y - s + 1))) ∨
      (x < s - 1 ∧ (j = s * x + y + s ∨ (0 < y ∧ j = s * x + y + s - 1) ∨
        (y < s - 1 ∧ j = s * x + y + s + 1))) ∨
      (0 < y ∧ j = s * x + y - 1) ∨ (y < s - 1 ∧ j = s * x + y + 1) := by
  rw [adjRow_def, encode_div x hs hy, encode_mod x hy]
  simp only [List.mem_append, mem_ite_list, List.mem_singleton,
    List.mem_cons, List.not_mem_nil, or_false]
  tauto

lemma adjRow_mem_coords (s x y j : Nat) (hs : 0 < s) (hx : x < s)
    (hy : y < s) :
    j ∈ adjRow s (s * x + y) ↔
      ∃ a b, a < s ∧ b < s ∧ j = s * a + b ∧ ¬(a = x ∧ b = y) ∧
        x ≤ a + 1 ∧ a ≤ x + 1 ∧ y ≤ b + 1 ∧ b ≤ y + 1 := by
  rw [mem_adjRow_iff s x y j hs hy]
  constructor
  · rintro (⟨hx0, hj | ⟨hy0, hj⟩ | ⟨hys, hj⟩⟩ |
      ⟨hxs, hj | ⟨hy0, hj⟩ | ⟨hys, hj⟩⟩ | ⟨hy0, hj⟩ | ⟨hys, hj⟩)
    · obtain ⟨x', rfl⟩ : ∃ x'', x = x'' + 1 := ⟨x - 1, by omega⟩
      rw [Nat.mul_succ] at hj
      exact ⟨x', y, by omega, hy, by omega, by omega, by omega, by omega,
        by omega, by omega⟩
    · obtain ⟨x', rfl⟩ : ∃ x'', x = x'' + 1 := ⟨x - 1, by omega⟩
      rw [Nat.mul_succ] at hj
      exact ⟨x', y - 1, by omega, by omega, by omega, by omega, by omega,
        by omega, by omega, by omega⟩
    · obtain ⟨x', rfl⟩ : ∃ x'', x = x'' + 1 := ⟨x - 1, by omega⟩
      rw [Nat.mul_succ] at hj
      exact ⟨x', y + 1, by omega, by omega, by omega, by omega, by omega,
        by omega, by omega, by omega⟩
    · refine ⟨x + 1, y, by omega, hy, ?_, by omega, by omega, by omega,
        by omega, by omega⟩
      rw [Nat.mul_succ]
      omega
    · refine ⟨x + 1, y - 1, by omega, by omega, ?_, by omega, by omega,
        by omega, by omega, by omega⟩
      rw [Nat.mul_succ]
      omega
    · refine ⟨x + 1, y + 1, by omega, by omega, ?_, by omega, by omega,
        by omega, by omega, by omega⟩
      rw [Nat.mul_succ]
      omega
    · exact ⟨x, y - 1, hx, by omega, by omega, by omega, by omega, by omega,
        by omega, by omega⟩
    · exact ⟨x, y + 1, hx, by omega, by omega, by omega, by omega, by omega,
        by omega, by omega⟩
  · rintro ⟨a, b, ha, hb, hj, hne, h1, h2, h3, h4⟩
    have hacase : a + 1 = x ∨ a = x ∨ a = x + 1 := by omega
    have hbcase : b + 1 = y ∨ b = y ∨ b = y + 1 := by omega
    rcases hacase with h | h | h
    · subst h
      simp only [Nat.mul_succ] at hj ⊢
      rcases hbcase with h' | h' | h'
      · subst h'
        exact Or.inl ⟨by omega, Or.inr (Or.inl ⟨by omega, by omega⟩)⟩
      · subst h'
        exact Or.inl ⟨by omega, Or.inl (by omega)⟩
      · subst h'
        exact Or.inl ⟨by omega, Or.inr (Or.inr ⟨by omega, by omega⟩)⟩
    · subst h
      rcases hbcase with h' | h' | h'
      · subst h'
        exact Or.inr (Or.inr (Or.inl ⟨by omega, by omega⟩))
      · exact absurd ⟨rfl, h'⟩ hne
      · subst h'
        exact Or.inr (Or.inr (Or.inr ⟨by omega, by omega⟩))
    · subst h
      simp only [Nat.mul_succ] at hj
      rcases hbcase with h' | h' | h'
      · subst h'
        exact Or.inr (Or.inl ⟨by omega, Or.inr (Or.inl ⟨by omega, by omega⟩)⟩)
      · subst h'
        exact Or.inr (Or.inl ⟨by omega, Or.inl (by omega)⟩)
      · subst h'
        exact Or.inr (Or.inl ⟨by omega, Or.inr (Or.inr ⟨by omega, by omega⟩)⟩)

lemma coords_iff_kingAdj (s x y j : Nat) (hs : 0 < s) (hx : x < s)
    (hy : y < s) :
    (∃ a b, a < s ∧ b < s ∧ j = s * a + b ∧ ¬(a = x ∧ b = y) ∧
      x ≤ a + 1 ∧ a ≤ x + 1 ∧ y ≤ b + 1 ∧ b ≤ y + 1) ↔
    kingAdj s (s * x + y) j := by
  have hdivi : (s * x + y) / s = x := encode_div x hs hy
  have hmodi : (s * x + y) % s = y := encode_mod x hy
  constructor
  · rintro ⟨a, b, ha, hb, rfl, hne, h1, h2, h3, h4⟩
    have hdivj : (s * a + b) / s = a := encode_div a hs hb
    have hmodj : (s * a + b) % s = b := encode_mod a hb
    refine ⟨encode_lt ha hb, ?_, ?_, ?_, ?_, ?_⟩
    · intro heq
      have h5 : a = x := by rw [← hdivj, heq, hdivi]
      have h6 : b = y := by rw [← hmodj, heq, hmodi]
      exact hne ⟨h5, h6⟩
    · rw [hdivi, hdivj]
      omega
    · rw [hdivi, hdivj]
      omega
    · rw [hmodi, hmodj]
      omega
    · rw [hmodi, hmodj]
      omega
  · rintro ⟨hjlt, hjne, k1, k2, k3, k4⟩
    rw [hdivi] at k1 k2
    rw [hmodi] at k3 k4
    refine ⟨j / s, j % s, (Nat.div_lt_iff_lt_mul hs).mpr hjlt,
      Nat.mod_lt j hs, (Nat.div_add_mod j s).symm, ?_, by omega, by omega,
      by omega, by omega⟩
    rintro ⟨h5, h6⟩
    exact hjne (by rw [← Nat.div_add_mod j s, h5, h6])

lemma adjRow_nodup (s x y : Nat) (hs : 0 < s) (hx : x < s) (hy : y < s) :
    (adjRow s (s * x + y)).Nodup := by
  have hxb : 0 < x → s ≤ s * x := fun h => by
    calc s = s * 1 := (Nat.mul_one s).symm
      _ ≤ s * x := Nat.mul_le_mul_left s h
  rw [adjRow_def, encode_div x hs hy, encode_mod x hy]
  split_ifs <;>
    simp only [List.append_nil, List.nil_append, List.cons_append,
      List.singleton_append, List.nodup_cons, List.nodup_nil,
      List.mem_cons, List.mem_singleton, List.not_mem_nil, or_false,
      not_or, not_false_eq_true, and_true, true_and] <;>
    (repeat' apply And.intro) <;> omega

/-- C4.  For every positive board size, `init_adjacency` maps exactly the
indices `0 .. size²−1`, and each cell's neighbour list is duplicate-free
and contains precisely the distinct in-bounds king-move neighbours of the
cell (every existing one of the up to 8 directions, fewer at edges and
corners). -/
theorem init_adjacency_spec (size : Nat) (hs : 0 < size) :
    (init_adjacency size).map Prod.fst = List.range (size * size) ∧
    ∀ i, i < size * size →
      (adjRow size i).Nodup ∧ ∀ j, (j ∈ adjRow size i ↔ kingAdj size i j) := by
  constructor
  · simp [init_adjacency, List.map_map, Function.comp_def]
  · intro i hi
    obtain ⟨x, y, hx, hy, rfl⟩ :
        ∃ x y, x < size ∧ y < size ∧ size * x + y = i :=
      ⟨i / size, i % size, (Nat.div_lt_iff_lt_mul hs).mpr hi,
        Nat.mod_lt i hs, Nat.div_add_mod i size⟩
    exact ⟨adjRow_nodup size x y hs hx hy,
      fun j => (adjRow_mem_coords size x y j hs hx hy).trans
        (coords_iff_kingAdj size x y j hs hx hy)⟩

/-! ### C7: the 2×2 CAT/CATS scenario -/

/-- C7 counterexample.  Loading the lines CAT, CATS, AT, DOG with minimum
length 3 does not yield the word set {CAT, CATS}: DOG survives loading
(`load_words` filters by length only, not by grid realisability). -/
theorem load_words_keeps_DOG :
    ['D', 'O', 'G'] ∈
      load_words [['C','A','T'], ['C','A','T','S'], ['A','T'], ['D','O','G']]
        3 := by decide

/-- C7 amended.  On the 2×2 board `[C, A, T, S]` (all four cells mutually
adjacent), loading CAT, CATS, AT, DOG with minimum length 3 yields the words
CAT, CATS, DOG (AT dropped for length), and `find_words` returns exactly
CAT and CATS, each once. -/
theorem cats_scenario :
    load_words [['C','A','T'], ['C','A','T','S'], ['A','T'], ['D','O','G']] 3
        = [['C','A','T'], ['C','A','T','S'], ['D','O','G']] ∧
      find_words [['C'], ['A'], ['T'], ['S']] (fun i => adjRow 2 i)
          (load_words
            [['C','A','T'], ['C','A','T','S'], ['A','T'], ['D','O','G']] 3)
        = [['C','A','T'], ['C','A','T','S']] ∧
      (∀ i < 4, ∀ j < 4, i ≠ j → j ∈ adjRow 2 i) := by decide

/-! ### C10: the Q / QU consonant -/

/-- C10.  The consonant table holds the two-character entry QU in place of
Q, so validating the single letter Q fails while QU is accepted; a board
built from the one-cell letter sequence [QU] succeeds with a single cell,
and on it `find_words` finds the word QU — character length 2 — via the
length-1 path [0]. -/
theorem q_replaced_by_qu :
    ['Q'] ∉ consonants ∧ ['Q', 'U'] ∈ consonants ∧
      validate_letter ['Q'] = none ∧
      validate_letter ['Q', 'U'] = some ['Q', 'U'] ∧
      (mkBoard [['Q']]).isNone = true ∧
      (∃ b, mkBoard [['Q', 'U']] = some b ∧ b.size = 1 ∧
        b.letters = [['Q', 'U']]) ∧
      find_words [['Q', 'U']] (fun i => adjRow 1 i) [['Q', 'U']]
          = [['Q', 'U']] ∧
      Realizes [['Q', 'U']] (fun i => adjRow 1 i) [0] ['Q', 'U'] ∧
      ([0] : List Nat).length < (['Q', 'U'] : Word).length := by
  refine ⟨by decide, by decide, by decide, by decide, by decide,
    ⟨_, rfl, rfl, rfl⟩, by decide, by decide, by decide⟩

/-! ### C1 and C8 counterexamples -/

/-- C1 counterexample.  On the 2×2 board `[T, O, T, O]`-style grid
`[T, O, O, T]` with dictionary word TOT, the word is realizable via several
distinct simple paths and `find_words` records it four times: the found-word
collection does contain duplicate entries. -/
theorem find_words_duplicates :
    find_words [['T'], ['O'], ['O'], ['T']] (fun i => adjRow 2 i)
        [['T','O','T']]
      = [['T','O','T'], ['T','O','T'], ['T','O','T'], ['T','O','T']] ∧
    ¬ (find_words [['T'], ['O'], ['O'], ['T']] (fun i => adjRow 2 i)
        [['T','O','T']]).Nodup := by decide

/-- C8 counterexample.  With minimum word length 2 (which exceeds 1) the
1×1 board whose single validated cell is QU yields a nonempty result: the
dictionary line QU survives loading at minimum length 2 and is found on the
single cell. -/
theorem one_by_one_nonempty_at_min_two :
    validate_letter ['Q', 'U'] = some ['Q', 'U'] ∧
      load_words [['Q', 'U']] 2 = [['Q', 'U']] ∧
      find_words [['Q', 'U']] (fun i => adjRow 1 i)
          (load_words [['Q', 'U']] 2) ≠ [] := by decide

/-! ### Witnesses -/

/-- Witness for C1 (amended): applying completeness on the TOT board with
the concrete realizing path `[0, 1, 3]`. -/
theorem find_words_complete_witness :
    ['T','O','T'] ∈ find_words [['T'], ['O'], ['O'], ['T']]
      (fun i => adjRow 2 i) [['T','O','T']] :=
  find_words_complete [['T'], ['O'], ['O'], ['T']] (fun i => adjRow 2 i)
    [['T','O','T']] ['T','O','T'] [0, 1, 3] (by decide) (by decide)

/-- Witness for C2: soundness applied to the word CAT found on the 2×2
CATS board. -/
theorem find_words_sound_witness :
    ['C','A','T'] ∈ [[ 'C','A','T'], ['C','A','T','S']] ∧
      ∃ p, Realizes [['C'], ['A'], ['T'], ['S']] (fun i => adjRow 2 i) p
        ['C','A','T'] :=
  find_words_sound [['C'], ['A'], ['T'], ['S']] (fun i => adjRow 2 i)
    [['C','A','T'], ['C','A','T','S']] ['C','A','T'] (by decide) (by decide)

/-- Witness for C3: the frame theorem applied to two concrete boards that
agree on letters and adjacency but differ in their prior `found_words`. -/
theorem find_words_method_frame_witness :
    ((Board.mk 1 [['A']] (fun i => adjRow 1 i) []).find_words_method
        [['A']]).found_words
      = ((Board.mk 1 [['A']] (fun i => adjRow 1 i)
          [['X']]).find_words_method [['A']]).found_words :=
  (find_words_method_frame (Board.mk 1 [['A']] (fun i => adjRow 1 i) [])
    (Board.mk 1 [['A']] (fun i => adjRow 1 i) [['X']]) [['A']]
    rfl rfl).2.2.2.2.1

/-- Witness for C4: the adjacency characterisation applied at size 2,
cell 0, candidate neighbour 3. -/
theorem init_adjacency_spec_witness :
    (3 ∈ adjRow 2 0) ↔ kingAdj 2 0 3 :=
  ((init_adjacency_spec 2 (by decide)).2 0 (by decide)).2 3

/-- Witness for C8 (amended): the empty 1×1 result at the default minimum
length 3 with the validated letter A. -/
theorem one_by_one_board_witness :
    adjRow 1 0 = [] ∧
      find_words [['A']] (fun i => adjRow 1 i)
        (load_words [['C','A','T'], ['A','T']] 3) = [] :=
  one_by_one_board ['A'] [['C','A','T'], ['A','T']] 3 (by decide) (by decide)

/-- Witness for C9: fuel 9 ≥ 4 = N² reproduces `find_words` on the 2×2
CATS board. -/
theorem find_words_fuel_bound_witness :
    find_words_fuel [['C'], ['A'], ['T'], ['S']] (fun i => adjRow 2 i)
        [['C','A','T']] 9
      = find_words [['C'], ['A'], ['T'], ['S']] (fun i => adjRow 2 i)
        [['C','A','T']] :=
  find_words_fuel_bound [['C'], ['A'], ['T'], ['S']] (fun i => adjRow 2 i)
    [['C','A','T']] 9 (by decide) (by decide)

end Boggle
